import Mathlib

/-!
Shallow embedding of the Naev economy engine (`src/economy.c`) and proofs
about its trade, production, pricing and driver operations.

The galaxy state is a function `ℕ → StarSystem` indexed by stack position;
the globals `systems_nstack`, `econ_nprices`, `trade_modifier` and
`production_modifier` become explicit parameters `nsys npr tm pm` of each
operation.  Doubles are modelled as exact rationals; C `for` loops over
array slots become folds over `List.range`.
-/

/-- A planet, restricted to the field the economy reads: its per-good
production-modifier array.  `none` models an unallocated (`NULL`) array. -/
structure Planet where
  prod_mods : Option (ℕ → ℚ)

/-- A star system's economy-relevant fields (`StarSystem` in `space.h`):
`id`, `credits`, the four per-good arrays and the jump-target list. -/
@[ext]
structure StarSystem where
  id : ℕ
  credits : ℚ
  stockpiles : ℕ → ℚ
  prices : ℕ → ℚ
  prod_mods : ℕ → ℚ
  bought : ℕ → ℚ
  jumps : List ℕ
  planets : List Planet

/-- The galaxy state: `systems_stack` as a total function on stack indices. -/
abbrev Sys := ℕ → StarSystem

/-- A commodity, restricted to the fields the economy reads (`price` is the
XML base price, parsed as an int; `index` is set during `commodity_load`). -/
structure Commodity where
  price : ℤ
  index : ℕ

/-- Modelled from the spec: the `PRICE` macro lives in `economy.h`, which is
not part of the sources; the spec pins the curve to the monotone form
`P(credits, stockpile) = credits / stockpile` (spec section 4.3 and section 9,
"credits/stockpile is the simplest fit"). -/
def PRICE (credits goods : ℚ) : ℚ := credits / goods

/-- C cast of a `double` to an integer credits value: truncation toward zero.
For a rational this is `num / den` with truncating integer division. -/
def truncQ (q : ℚ) : ℤ := q.num.tdiv q.den

/-- `production` from `economy.c` line 524: the per-tick adjustment.
`pm` is the global `production_modifier`. -/
def production (pm mod goods : ℚ) : ℚ :=
  if 0 ≤ mod then pm * mod * (180000 / goods)
  else pm * mod * (goods / 18000)

/-- Update the slots listed in `l` of the array `f0`, one at a time, each new
value computed by `g` from the slot index and the current content.  This is
the common shape of the per-slot `for` loops in `economy.c`. -/
def updEach {β : Type} (g : ℕ → β → β) (l : List ℕ) (f0 : ℕ → β) : ℕ → β :=
  l.foldl (fun f j => Function.update f j (g j (f j))) f0

/-- The stockpile array produced by the inner loop of `produce_consume`
(lines 551-558): `stockpiles[goodnum] += production(mod, goods)`. -/
def produce_consume_arr (npr : ℕ) (pm : ℚ) (mods st : ℕ → ℚ) : ℕ → ℚ :=
  updEach (fun gn v => v + production pm (mods gn) v) (List.range npr) st

/-- Inner loop of `produce_consume` (lines 551-558) for one system. -/
def produce_consume_sys (npr : ℕ) (pm : ℚ) (s : StarSystem) : StarSystem :=
  { s with stockpiles := produce_consume_arr npr pm s.prod_mods s.stockpiles }

/-- `produce_consume` from `economy.c` lines 535-560. -/
def produce_consume (nsys npr : ℕ) (pm : ℚ) (sys : Sys) : Sys :=
  updEach (fun _ s => produce_consume_sys npr pm s) (List.range nsys) sys

/-- The planet-aggregation loop body of `refresh_economy` (lines 581-587) for
one commodity: start from `0.0` and add each planet's modifier in order, but
`break` on an uninitialized planet array.  The C guard is
`sys->planets[pl]->prod_mods + comm == NULL`, which is true only when the
array pointer is `NULL` and `comm == 0`; for `comm > 0` an uninitialized
planet is not detected and the C code dereferences the null array, so the
`getD` fallback below is only reachable where the C code has no defined
behaviour, and theorems about `comm > 0` assume all planets initialized. -/
def sumPlanets (comm : ℕ) : List Planet → ℚ → ℚ
  | [], acc => acc
  | p :: ps, acc =>
      if p.prod_mods.isNone && comm == 0 then acc
      else sumPlanets comm ps (acc + (p.prod_mods.getD (fun _ => 0)) comm)

/-- The production-modifier array computed by the inner loops of
`refresh_economy` (lines 578-588) for one system. -/
def refresh_economy_arr (npr : ℕ) (planets : List Planet) (pm0 : ℕ → ℚ) : ℕ → ℚ :=
  updEach (fun comm _ => sumPlanets comm planets 0) (List.range npr) pm0

/-- Inner loops of `refresh_economy` (lines 578-588) for one system. -/
def refresh_economy_sys (npr : ℕ) (s : StarSystem) : StarSystem :=
  { s with prod_mods := refresh_economy_arr npr s.planets s.prod_mods }

/-- `refresh_economy` from `economy.c` lines 566-591. -/
def refresh_economy (nsys npr : ℕ) (sys : Sys) : Sys :=
  updEach (fun _ s => refresh_economy_sys npr s) (List.range nsys) sys

/-- Inner loop of `refresh_prices` (lines 611-622) for one system:
`prices[goodnum] = (double) commodity_stack[goodnum].price * PRICE(credits, goods)`.
Note the source indexes `commodity_stack` by the priced slot `goodnum`
directly, not through `econ_comm`. -/
def refresh_prices_arr (npr : ℕ) (stack : List Commodity) (credits : ℚ) (st pr : ℕ → ℚ) : ℕ → ℚ :=
  updEach (fun gn _ => ((stack.getD gn ⟨0, 0⟩).price : ℚ) * PRICE credits (st gn))
    (List.range npr) pr

/-- Inner loop of `refresh_prices` for one system. -/
def refresh_prices_sys (npr : ℕ) (stack : List Commodity) (s : StarSystem) : StarSystem :=
  { s with prices := refresh_prices_arr npr stack s.credits s.stockpiles s.prices }

/-- `refresh_prices` from `economy.c` lines 594-624. -/
def refresh_prices (nsys npr : ℕ) (stack : List Commodity) (sys : Sys) : Sys :=
  updEach (fun _ s => refresh_prices_sys npr stack s) (List.range nsys) sys

/-- In-place update of one system of the stack, mirroring mutation through a
`StarSystem *` pointer. -/
def updSys (sys : Sys) (i : ℕ) (f : StarSystem → StarSystem) : Sys :=
  Function.update sys i (f (sys i))

/-- The joint price of `trade_update` line 663:
`price = (credits1 + credits2) / (stock1 + stock2)`. -/
def tradePrice (s1 s2 : StarSystem) (gn : ℕ) : ℚ :=
  (s1.credits + s2.credits) / (s1.stockpiles gn + s2.stockpiles gn)

/-- The flow of `trade_update` lines 666-667:
`trade = tm * (credits1*stock2 - credits2*stock1) / (price*(stock1+stock2) + credits1+credits2)`. -/
def tradeAmount (tm : ℚ) (s1 s2 : StarSystem) (gn : ℕ) : ℚ :=
  tm * (s1.credits * s2.stockpiles gn - s2.credits * s1.stockpiles gn)
    / (tradePrice s1 s2 gn * (s1.stockpiles gn + s2.stockpiles gn) + s1.credits + s2.credits)

/-- The six sequential pointer updates of `trade_update` lines 669-676,
with `price` and `trade` already computed. -/
def applyTrade (price trade : ℚ) (i t gn : ℕ) (sys : Sys) : Sys :=
  updSys (updSys (updSys (updSys (updSys (updSys sys
    i (fun s => { s with credits := s.credits - price * trade }))
    t (fun s => { s with credits := s.credits + price * trade }))
    i (fun s => { s with stockpiles := Function.update s.stockpiles gn (s.stockpiles gn + trade) }))
    t (fun s => { s with stockpiles := Function.update s.stockpiles gn (s.stockpiles gn - trade) }))
    i (fun s => { s with bought := Function.update s.bought gn (s.bought gn + trade) }))
    t (fun s => { s with bought := Function.update s.bought gn (s.bought gn - trade) })

/-- Body of the per-good trade loop (lines 660-677) for one good of one edge:
compute `price` and `trade` from the current states of the two endpoint
systems, then apply the six updates. -/
def tradeGoodStep (tm : ℚ) (i t gn : ℕ) (sys : Sys) : Sys :=
  applyTrade (tradePrice (sys i) (sys t) gn) (tradeAmount tm (sys i) (sys t) gn) i t gn sys

/-- The goods loop of one processed edge (`for (goodnum=0; ...)`, line 660). -/
def tradeEdge (npr : ℕ) (tm : ℚ) (i t : ℕ) (sys : Sys) : Sys :=
  (List.range npr).foldl (fun s gn => tradeGoodStep tm i t gn s) sys

/-- The jump loop of `trade_update` for system `i` (lines 653-679): for each
jump target, trade only when `i < sys2->id` (the visited-once tie-break). -/
def tradeSystem (npr : ℕ) (tm : ℚ) (i : ℕ) (sys : Sys) : Sys :=
  (sys i).jumps.foldl (fun s t => if i < (s t).id then tradeEdge npr tm i t s else s) sys

/-- The `sys.bought` reset loop of `trade_update` (lines 642-646) for one
system. -/
def reset_bought_sys (npr : ℕ) (s : StarSystem) : StarSystem :=
  { s with bought := updEach (fun _ _ => 0) (List.range npr) s.bought }

/-- The full `bought` reset of `trade_update` lines 642-646. -/
def resetBought (nsys npr : ℕ) (sys : Sys) : Sys :=
  updEach (fun _ s => reset_bought_sys npr s) (List.range nsys) sys

/-- `trade_update` from `economy.c` lines 627-681: reset `bought`, then run
the edge loops over every system. -/
def trade_update (nsys npr : ℕ) (tm : ℚ) (sys : Sys) : Sys :=
  (List.range nsys).foldl (fun s i => tradeSystem npr tm i s) (resetBought nsys npr sys)

/-- The list of (iterating endpoint, target) pairs actually traded by one
`trade_update` pass, read off the jump lists and ids of the initial state. -/
def edgeList (nsys : ℕ) (sys : Sys) : List (ℕ × ℕ) :=
  (List.range nsys).flatMap fun i =>
    ((sys i).jumps.filter (fun t => decide (i < (sys t).id))).map (fun t => (i, t))

/-- One fused trade/produce/reprice sub-step of `economy_update` lines
700-702. -/
def econTriple (nsys npr : ℕ) (tm pm : ℚ) (stack : List Commodity) (sys : Sys) : Sys :=
  refresh_prices nsys npr stack (produce_consume nsys npr pm (trade_update nsys npr tm sys))

/-- The driver loop of `economy_update` line 698:
`for (i=0; i<dt; i+=10000000)` with `i` and `dt` unsigned 32-bit, so the
increment wraps modulo `2^32`.  `fuel` bounds the number of iterations so the
function is total; whenever the C loop terminates without the counter
wrapping, any `fuel` at least the iteration count gives the C result.  The
state type is generic so the same loop can be run on the galaxy or on an
iteration counter. -/
def econLoop {G : Type} (step : G → G) (fuel i dt : ℕ) (g : G) : G :=
  match fuel with
  | 0 => g
  | Nat.succ f => if i < dt then econLoop step f ((i + 10000000) % 4294967296) dt (step g) else g

/-- `economy_update` from `economy.c` lines 688-706: reprice once, then run
the sub-step loop.  `dt` models the `unsigned int` argument (so `dt < 2^32`);
the fuel `dt` is sufficient for every `dt` for which the C loop terminates
without its counter wrapping. -/
def economy_update (nsys npr : ℕ) (tm pm : ℚ) (stack : List Commodity) (dt : ℕ) (sys : Sys) : Sys :=
  econLoop (econTriple nsys npr tm pm stack) dt 0 dt (refresh_prices nsys npr stack sys)

/-- The unit-stepping loop of `price_of_buying` lines 426-432, running a fixed
number of iterations (`i != n_tons`, `i += buying` runs `|n_tons|` times). -/
def buyLoop (buying : ℤ) : ℕ → ℚ → ℚ → ℚ → ℚ
  | 0, _, _, f_price => f_price
  | Nat.succ k, p_creds, p_goods, f_price =>
      buyLoop buying k (p_creds + PRICE p_creds p_goods * buying) (p_goods - buying)
        (f_price + PRICE p_creds p_goods)

/-- `price_of_buying` from `economy.c` lines 408-437.  `credits_t` is defined
in `economy.h`, which is not part of the sources; modelled from the spec: the
sentinel `0xFFFFFFFFFFFFFFF0` is "a maximum-magnitude cost in the credits
type", so the conversion of the literal into `credits_t` is value-preserving
and the result type is modelled as unbounded `ℤ`. -/
def price_of_buying (n_tons : ℤ) (p_creds p_goods : ℚ) : ℤ :=
  if p_goods - (n_tons : ℚ) ≤ 1 then 18446744073709551600
  else truncQ (buyLoop (if 0 < n_tons then 1 else -1) n_tons.natAbs p_creds p_goods 0)

/-- The scan of `economy_getPrice` lines 388-390: first `i` with
`econ_comm[i] == com->index`, if any. -/
def econFindIdx (l : List ℕ) (idx : ℕ) : Option ℕ :=
  match l with
  | [] => none
  | c :: r => if c = idx then some 0 else (econFindIdx r idx).map (· + 1)

/-- `economy_getPrice` from `economy.c` lines 380-402.  The planet argument is
received (and cast to void) but never read. -/
def economy_getPrice (econ_comm : List ℕ) (com_index : ℕ) (sys : StarSystem) (p : Planet) : ℤ :=
  match econFindIdx econ_comm com_index with
  | none => 0
  | some i => truncQ (PRICE sys.credits (sys.stockpiles i))

/-- The evolving load-time state of `commodity_load`: the commodity stack and
the priced-index map `econ_comm` (`econ_nprices` is its length). -/
structure LoadState where
  stack : List Commodity
  econ_comm : List ℕ

/-- One iteration of the `commodity_load` loop (lines 321-342) for a
commodity parsed with the given base price: append it to the stack (with
`index` zeroed by `memset`), and if its price is positive run lines 334-337.
Note line 334 writes `commodity_stack[econ_nprices].index = econ_nprices`,
indexing the stack by the priced count, not by the new commodity's slot. -/
def commodity_load_one (st : LoadState) (price : ℤ) : LoadState :=
  let stack := st.stack ++ [⟨price, 0⟩]
  if 0 < price then
    let np := st.econ_comm.length
    { stack := stack.set np ⟨(stack.getD np ⟨0, 0⟩).price, np⟩,
      econ_comm := st.econ_comm ++ [stack.length - 1] }
  else
    { stack := stack, econ_comm := st.econ_comm }

/-- `commodity_load` over a list of parsed base prices. -/
def commodity_load (prices : List ℤ) : LoadState :=
  prices.foldl commodity_load_one ⟨[], []⟩

/-- Total credits over the stack, as in the conservation property. -/
def creditsSum (n : ℕ) (sys : Sys) : ℚ := ∑ j in Finset.range n, (sys j).credits

/-- Total stockpile of good `gn` over the stack. -/
def stockSum (n : ℕ) (sys : Sys) (gn : ℕ) : ℚ := ∑ j in Finset.range n, (sys j).stockpiles gn

/-- The graph-shaped data of every system: id, jump list and production
modifiers, none of which the per-tick operations may change. -/
def graphProfile (sys : Sys) : ℕ → ℕ × List ℕ × (ℕ → ℚ) :=
  fun j => ((sys j).id, (sys j).jumps, (sys j).prod_mods)

/-- Strict positivity of every credit balance and every priced stockpile. -/
def posState (nsys npr : ℕ) (sys : Sys) : Prop :=
  ∀ i, i < nsys → 0 < (sys i).credits ∧ ∀ gn, gn < npr → 0 < (sys i).stockpiles gn

instance (nsys npr : ℕ) (sys : Sys) : Decidable (posState nsys npr sys) := by
  unfold posState; infer_instance

/-- Two mutually connected systems in an out-of-equilibrium state; used as
concrete input for the trade theorems. -/
def exG : Sys := fun j =>
  if j = 0 then ⟨0, 30, fun _ => 10, fun _ => 0, fun _ => 0, fun _ => 0, [1], []⟩
  else ⟨1, 10, fun _ => 10, fun _ => 0, fun _ => 0, fun _ => 0, [0], []⟩

/-- One isolated system with a large negative production modifier. -/
def exGneg : Sys := fun _ =>
  ⟨0, 100000000, fun _ => 100000, fun _ => 0, fun _ => -1800000, fun _ => 0, [], []⟩

/-- One isolated system with small positive state. -/
def exG1 : Sys := fun _ => ⟨0, 100, fun _ => 50, fun _ => 0, fun _ => 0, fun _ => 0, [], []⟩

/-- One system holding an uninitialized planet followed by an initialized
one. -/
def exGpl : Sys := fun _ =>
  ⟨0, 1, fun _ => 1, fun _ => 0, fun _ => 0, fun _ => 0, [], [⟨none⟩, ⟨some fun _ => 5⟩]⟩

theorem updEach_apply {β : Type} (g : ℕ → β → β) :
    ∀ (l : List ℕ) (f0 : ℕ → β), l.Nodup →
      ∀ i, updEach g l f0 i = if i ∈ l then g i (f0 i) else f0 i := by
  intro l
  induction l with
  | nil => intro f0 _ i; simp [updEach]
  | cons j r ih =>
      intro f0 hnd i
      rw [List.nodup_cons] at hnd
      have h1 : updEach g (j :: r) f0 = updEach g r (Function.update f0 j (g j (f0 j))) := rfl
      rw [h1, ih _ hnd.2 i]
      by_cases hij : i = j
      · subst hij
        simp [hnd.1]
      · simp [Function.update_noteq hij, hij]

theorem updEach_const_apply {β : Type} (T : β → β) (n : ℕ) (f0 : ℕ → β) (i : ℕ) :
    updEach (fun _ s => T s) (List.range n) f0 i = if i < n then T (f0 i) else f0 i := by
  rw [updEach_apply (fun _ s => T s) (List.range n) f0 (List.nodup_range n) i]
  simp [List.mem_range]

theorem produce_consume_apply (nsys npr : ℕ) (pm : ℚ) (sys : Sys) (i : ℕ) :
    produce_consume nsys npr pm sys i
      = if i < nsys then produce_consume_sys npr pm (sys i) else sys i :=
  updEach_const_apply (produce_consume_sys npr pm) nsys sys i

theorem produce_consume_arr_apply (npr : ℕ) (pm : ℚ) (mods st : ℕ → ℚ) (gn : ℕ) :
    produce_consume_arr npr pm mods st gn
      = if gn < npr then st gn + production pm (mods gn) (st gn) else st gn := by
  unfold produce_consume_arr
  rw [updEach_apply (fun gn v => v + production pm (mods gn) v) (List.range npr) st
      (List.nodup_range npr) gn]
  simp [List.mem_range]

theorem refresh_prices_apply (nsys npr : ℕ) (stack : List Commodity) (sys : Sys) (i : ℕ) :
    refresh_prices nsys npr stack sys i
      = if i < nsys then refresh_prices_sys npr stack (sys i) else sys i :=
  updEach_const_apply (refresh_prices_sys npr stack) nsys sys i

theorem refresh_prices_arr_apply (npr : ℕ) (stack : List Commodity) (credits : ℚ)
    (st pr : ℕ → ℚ) (gn : ℕ) :
    refresh_prices_arr npr stack credits st pr gn
      = if gn < npr then ((stack.getD gn ⟨0, 0⟩).price : ℚ) * PRICE credits (st gn) else pr gn := by
  unfold refresh_prices_arr
  rw [updEach_apply _ (List.range npr) pr (List.nodup_range npr) gn]
  simp [List.mem_range]

theorem refresh_economy_apply (nsys npr : ℕ) (sys : Sys) (i : ℕ) :
    refresh_economy nsys npr sys i
      = if i < nsys then refresh_economy_sys npr (sys i) else sys i :=
  updEach_const_apply (refresh_economy_sys npr) nsys sys i

theorem refresh_economy_arr_apply (npr : ℕ) (planets : List Planet) (pm0 : ℕ → ℚ) (comm : ℕ) :
    refresh_economy_arr npr planets pm0 comm
      = if comm < npr then sumPlanets comm planets 0 else pm0 comm := by
  unfold refresh_economy_arr
  rw [updEach_apply _ (List.range npr) pm0 (List.nodup_range npr) comm]
  simp [List.mem_range]

theorem resetBought_apply (nsys npr : ℕ) (sys : Sys) (i : ℕ) :
    resetBought nsys npr sys i
      = if i < nsys then reset_bought_sys npr (sys i) else sys i :=
  updEach_const_apply (reset_bought_sys npr) nsys sys i

theorem sum_comp_update (φ : StarSystem → ℚ) (sys : Sys) (i : ℕ) (v : StarSystem) (n : ℕ)
    (hi : i < n) :
    (∑ j in Finset.range n, φ (Function.update sys i v j))
      = (∑ j in Finset.range n, φ (sys j)) + (φ v - φ (sys i)) := by
  have h1 : ∀ j, φ (Function.update sys i v j)
      = Function.update (fun k => φ (sys k)) i (φ v) j := by
    intro j
    by_cases h : j = i
    · subst h; simp
    · rw [Function.update_noteq h, Function.update_noteq h]
  rw [Finset.sum_congr rfl (fun j _ => h1 j),
      Finset.sum_update_of_mem (Finset.mem_range.mpr hi), ← Finset.erase_eq,
      ← Finset.sum_erase_add (Finset.range n) (fun k => φ (sys k)) (Finset.mem_range.mpr hi)]
  ring

theorem creditsSum_updSys (sys : Sys) (i : ℕ) (f : StarSystem → StarSystem) (n : ℕ)
    (hi : i < n) :
    creditsSum n (updSys sys i f) = creditsSum n sys + ((f (sys i)).credits - (sys i).credits) :=
  sum_comp_update (fun s => s.credits) sys i (f (sys i)) n hi

theorem stockSum_updSys (sys : Sys) (i : ℕ) (f : StarSystem → StarSystem) (n gn : ℕ)
    (hi : i < n) :
    stockSum n (updSys sys i f) gn
      = stockSum n sys gn + ((f (sys i)).stockpiles gn - (sys i).stockpiles gn) :=
  sum_comp_update (fun s => s.stockpiles gn) sys i (f (sys i)) n hi

theorem applyTrade_creditsSum (price trade : ℚ) (i t gn : ℕ) (sys : Sys) (n : ℕ)
    (hi : i < n) (ht : t < n) :
    creditsSum n (applyTrade price trade i t gn sys) = creditsSum n sys := by
  unfold applyTrade
  rw [creditsSum_updSys _ _ _ _ ht, creditsSum_updSys _ _ _ _ hi,
      creditsSum_updSys _ _ _ _ ht, creditsSum_updSys _ _ _ _ hi,
      creditsSum_updSys _ _ _ _ ht, creditsSum_updSys _ _ _ _ hi]
  simp

theorem applyTrade_stockSum (price trade : ℚ) (i t gn : ℕ) (sys : Sys) (n gn0 : ℕ)
    (hi : i < n) (ht : t < n) :
    stockSum n (applyTrade price trade i t gn sys) gn0 = stockSum n sys gn0 := by
  unfold applyTrade
  rw [stockSum_updSys _ _ _ _ _ ht, stockSum_updSys _ _ _ _ _ hi,
      stockSum_updSys _ _ _ _ _ ht, stockSum_updSys _ _ _ _ _ hi,
      stockSum_updSys _ _ _ _ _ ht, stockSum_updSys _ _ _ _ _ hi]
  by_cases hg : gn0 = gn
  · subst hg; simp
  · simp [Function.update_noteq hg]

theorem graphProfile_updSys (sys : Sys) (i : ℕ) (f : StarSystem → StarSystem)
    (h : ∀ s, (f s).id = s.id ∧ (f s).jumps = s.jumps ∧ (f s).prod_mods = s.prod_mods) :
    graphProfile (updSys sys i f) = graphProfile sys := by
  funext j
  by_cases hj : j = i
  · subst hj
    simp [graphProfile, updSys, (h (sys j)).1, (h (sys j)).2.1, (h (sys j)).2.2]
  · simp [graphProfile, updSys, Function.update_noteq hj]

theorem graphProfile_applyTrade (price trade : ℚ) (i t gn : ℕ) (sys : Sys) :
    graphProfile (applyTrade price trade i t gn sys) = graphProfile sys := by
  unfold applyTrade
  rw [graphProfile_updSys, graphProfile_updSys, graphProfile_updSys,
      graphProfile_updSys, graphProfile_updSys, graphProfile_updSys]
  all_goals exact fun s => ⟨rfl, rfl, rfl⟩

theorem foldl_graphProfile {α : Type} (f : Sys → α → Sys)
    (h : ∀ s a, graphProfile (f s a) = graphProfile s) :
    ∀ (l : List α) (s : Sys), graphProfile (l.foldl f s) = graphProfile s := by
  intro l
  induction l with
  | nil => intro s; rfl
  | cons a r ih => intro s; rw [List.foldl_cons, ih, h]

theorem graphProfile_tradeEdge (npr : ℕ) (tm : ℚ) (i t : ℕ) (sys : Sys) :
    graphProfile (tradeEdge npr tm i t sys) = graphProfile sys :=
  foldl_graphProfile _ (fun s gn => graphProfile_applyTrade _ _ i t gn s) (List.range npr) sys

theorem graphProfile_tradeSystem (npr : ℕ) (tm : ℚ) (i : ℕ) (sys : Sys) :
    graphProfile (tradeSystem npr tm i sys) = graphProfile sys := by
  refine foldl_graphProfile _ (fun s t => ?_) (sys i).jumps sys
  by_cases h : i < (s t).id
  · simp only [h, if_true]; exact graphProfile_tradeEdge npr tm i t s
  · simp only [h, if_false]

theorem graphProfile_resetBought (nsys npr : ℕ) (sys : Sys) :
    graphProfile (resetBought nsys npr sys) = graphProfile sys := by
  refine foldl_graphProfile _ (fun s i => ?_) (List.range nsys) sys
  exact graphProfile_updSys s i _ (fun s1 => ⟨rfl, rfl, rfl⟩)

theorem graphProfile_trade_update (nsys npr : ℕ) (tm : ℚ) (sys : Sys) :
    graphProfile (trade_update nsys npr tm sys) = graphProfile sys := by
  unfold trade_update
  rw [foldl_graphProfile _ (fun s i => graphProfile_tradeSystem npr tm i s),
      graphProfile_resetBought]

theorem graphProfile_produce_consume (nsys npr : ℕ) (pm : ℚ) (sys : Sys) :
    graphProfile (produce_consume nsys npr pm sys) = graphProfile sys := by
  refine foldl_graphProfile _ (fun s i => ?_) (List.range nsys) sys
  exact graphProfile_updSys s i _ (fun s1 => ⟨rfl, rfl, rfl⟩)

theorem graphProfile_refresh_prices (nsys npr : ℕ) (stack : List Commodity) (sys : Sys) :
    graphProfile (refresh_prices nsys npr stack sys) = graphProfile sys := by
  refine foldl_graphProfile _ (fun s i => ?_) (List.range nsys) sys
  exact graphProfile_updSys s i _ (fun s1 => ⟨rfl, rfl, rfl⟩)

theorem graphProfile_id {sys1 sys2 : Sys} (h : graphProfile sys1 = graphProfile sys2) (j : ℕ) :
    (sys1 j).id = (sys2 j).id := by
  have h1 := congrFun h j
  simp only [graphProfile, Prod.mk.injEq] at h1
  exact h1.1

theorem graphProfile_jumps {sys1 sys2 : Sys} (h : graphProfile sys1 = graphProfile sys2) (j : ℕ) :
    (sys1 j).jumps = (sys2 j).jumps := by
  have h1 := congrFun h j
  simp only [graphProfile, Prod.mk.injEq] at h1
  exact h1.2.1

theorem graphProfile_mods {sys1 sys2 : Sys} (h : graphProfile sys1 = graphProfile sys2) (j : ℕ) :
    (sys1 j).prod_mods = (sys2 j).prod_mods := by
  have h1 := congrFun h j
  simp only [graphProfile, Prod.mk.injEq] at h1
  exact h1.2.2

theorem applyTrade_apply_ne (price trade : ℚ) (i t gn j : ℕ) (sys : Sys)
    (hji : j ≠ i) (hjt : j ≠ t) :
    applyTrade price trade i t gn sys j = sys j := by
  simp [applyTrade, updSys, Function.update_noteq hji, Function.update_noteq hjt]

theorem applyTrade_apply_fst (price trade : ℚ) (i t gn : ℕ) (sys : Sys) (hit : i ≠ t) :
    (applyTrade price trade i t gn sys i).credits = (sys i).credits - price * trade
    ∧ (applyTrade price trade i t gn sys i).stockpiles
        = Function.update (sys i).stockpiles gn ((sys i).stockpiles gn + trade)
    ∧ (applyTrade price trade i t gn sys i).bought
        = Function.update (sys i).bought gn ((sys i).bought gn + trade) := by
  refine ⟨?_, ?_, ?_⟩ <;>
    simp [applyTrade, updSys, Function.update_apply, hit, Ne.symm hit]

theorem applyTrade_apply_snd (price trade : ℚ) (i t gn : ℕ) (sys : Sys) (hit : i ≠ t) :
    (applyTrade price trade i t gn sys t).credits = (sys t).credits + price * trade
    ∧ (applyTrade price trade i t gn sys t).stockpiles
        = Function.update (sys t).stockpiles gn ((sys t).stockpiles gn - trade)
    ∧ (applyTrade price trade i t gn sys t).bought
        = Function.update (sys t).bought gn ((sys t).bought gn - trade) := by
  refine ⟨?_, ?_, ?_⟩ <;>
    simp [applyTrade, updSys, Function.update_apply, hit, Ne.symm hit]

theorem applyTrade_self (price trade : ℚ) (i gn : ℕ) (sys : Sys) :
    applyTrade price trade i i gn sys = sys := by
  funext j
  by_cases hj : j = i
  · subst hj
    ext
    all_goals simp [applyTrade, updSys, Function.update_apply]
  · exact applyTrade_apply_ne price trade i i gn j sys hj hj

theorem foldl_inv {σ α : Type} (P : σ → Prop) (f : σ → α → σ) :
    ∀ (l : List α) (s : σ), (∀ s' a, a ∈ l → P s' → P (f s' a)) → P s → P (l.foldl f s) := by
  intro l
  induction l with
  | nil => intro s _ hs; exact hs
  | cons a r ih =>
      intro s h hs
      exact ih (f s a) (fun s' b hb => h s' b (List.mem_cons_of_mem a hb))
        (h s a (List.mem_cons_self a r) hs)

theorem trade_pos (tm c1 c2 s1 s2 price trade : ℚ)
    (htm0 : 0 < tm) (htm2 : tm < 2)
    (hc1 : 0 < c1) (hc2 : 0 < c2) (hs1 : 0 < s1) (hs2 : 0 < s2)
    (hp : price = (c1 + c2) / (s1 + s2))
    (ht : trade = tm * (c1 * s2 - c2 * s1) / (price * (s1 + s2) + c1 + c2)) :
    0 < c1 - price * trade ∧ 0 < c2 + price * trade ∧ 0 < s1 + trade ∧ 0 < s2 - trade := by
  have hs12 : (0:ℚ) < s1 + s2 := by linarith
  have hc12 : (0:ℚ) < c1 + c2 := by linarith
  have hne12 : s1 + s2 ≠ 0 := ne_of_gt hs12
  have hnec : c1 + c2 ≠ 0 := ne_of_gt hc12
  have hpe : price * (s1 + s2) = c1 + c2 := by
    rw [hp, div_mul_cancel₀ _ hne12]
  have htr : trade = tm * (c1 * s2 - c2 * s1) / (2 * (c1 + c2)) := by
    rw [ht, hpe]; ring_nf
  have hpt : price * trade = tm * (c1 * s2 - c2 * s1) / (2 * (s1 + s2)) := by
    rw [hp, htr]
    field_simp
    ring
  have h2s : (0:ℚ) < 2 * (s1 + s2) := by linarith
  have h2c : (0:ℚ) < 2 * (c1 + c2) := by linarith
  refine ⟨?_, ?_, ?_, ?_⟩
  · have h : tm * (c1 * s2 - c2 * s1) / (2 * (s1 + s2)) < c1 := by
      rw [div_lt_iff h2s]
      nlinarith [mul_pos hc1 hs1, mul_pos (mul_pos htm0 hc2) hs1,
        mul_pos (sub_pos.mpr htm2) (mul_pos hc1 hs2)]
    rw [hpt]; linarith
  · have h : -c2 < tm * (c1 * s2 - c2 * s1) / (2 * (s1 + s2)) := by
      rw [lt_div_iff h2s]
      nlinarith [mul_pos (mul_pos htm0 hc1) hs2, mul_pos hc2 hs2,
        mul_pos (sub_pos.mpr htm2) (mul_pos hc2 hs1)]
    rw [hpt]; linarith
  · have h : -s1 < tm * (c1 * s2 - c2 * s1) / (2 * (c1 + c2)) := by
      rw [lt_div_iff h2c]
      nlinarith [mul_pos (mul_pos htm0 hc1) hs2, mul_pos hc1 hs1,
        mul_pos (sub_pos.mpr htm2) (mul_pos hc2 hs1)]
    rw [htr]; linarith
  · have h : tm * (c1 * s2 - c2 * s1) / (2 * (c1 + c2)) < s2 := by
      rw [div_lt_iff h2c]
      nlinarith [mul_pos hc2 hs2, mul_pos (mul_pos htm0 hc2) hs1,
        mul_pos (sub_pos.mpr htm2) (mul_pos hc1 hs2)]
    rw [htr]; linarith

theorem production_pos_add (pm mod s : ℚ) (hpm : 0 ≤ pm) (hs : 0 < s)
    (hb : -18000 < pm * mod) :
    0 < s + production pm mod s := by
  unfold production
  by_cases hm : 0 ≤ mod
  · rw [if_pos hm]
    have h1 : 0 ≤ pm * mod * (180000 / s) := by positivity
    linarith
  · rw [if_neg hm]
    have h1 : pm * mod * (s / 18000) = pm * mod * s / 18000 := by ring
    have h2 : -18000 * s < pm * mod * s := mul_lt_mul_of_pos_right hb hs
    have h3 : (-18000 : ℚ) * s / 18000 = -s := by ring
    have h4 : -18000 * s / 18000 < pm * mod * s / 18000 :=
      (div_lt_div_right (by norm_num : (0:ℚ) < 18000)).mpr h2
    rw [h3] at h4
    linarith [h1, h4]

theorem posState_tradeGoodStep (nsys npr : ℕ) (tm : ℚ) (i t gn : ℕ) (sys : Sys)
    (htm0 : 0 < tm) (htm2 : tm < 2) (hi : i < nsys) (ht : t < nsys) (hgn : gn < npr)
    (hpos : posState nsys npr sys) :
    posState nsys npr (tradeGoodStep tm i t gn sys) := by
  by_cases hit : i = t
  · subst hit
    show posState nsys npr (applyTrade _ _ i i gn sys)
    rw [applyTrade_self]
    exact hpos
  · have hc1 := (hpos i hi).1
    have hc2 := (hpos t ht).1
    have hs1 := (hpos i hi).2 gn hgn
    have hs2 := (hpos t ht).2 gn hgn
    have hT := trade_pos tm ((sys i).credits) ((sys t).credits)
        ((sys i).stockpiles gn) ((sys t).stockpiles gn)
        (tradePrice (sys i) (sys t) gn) (tradeAmount tm (sys i) (sys t) gn)
        htm0 htm2 hc1 hc2 hs1 hs2 rfl rfl
    intro j hj
    unfold tradeGoodStep
    rcases eq_or_ne j i with hji | hji
    · subst hji
      have hf := applyTrade_apply_fst (tradePrice (sys j) (sys t) gn)
          (tradeAmount tm (sys j) (sys t) gn) j t gn sys hit
      refine ⟨?_, ?_⟩
      · rw [hf.1]; exact hT.1
      · intro gn2 hgn2
        rw [hf.2.1, Function.update_apply]
        split_ifs with hg2
        · subst hg2; exact hT.2.2.1
        · exact (hpos j hj).2 gn2 hgn2
    · rcases eq_or_ne j t with hjt | hjt
      · subst hjt
        have hf := applyTrade_apply_snd (tradePrice (sys i) (sys j) gn)
            (tradeAmount tm (sys i) (sys j) gn) i j gn sys hit
        refine ⟨?_, ?_⟩
        · rw [hf.1]; exact hT.2.1
        · intro gn2 hgn2
          rw [hf.2.1, Function.update_apply]
          split_ifs with hg2
          · subst hg2; exact hT.2.2.2
          · exact (hpos j hj).2 gn2 hgn2
      · rw [applyTrade_apply_ne _ _ i t gn j sys hji hjt]
        exact hpos j hj

theorem posState_tradeEdge (nsys npr : ℕ) (tm : ℚ) (i t : ℕ) (sys : Sys)
    (htm0 : 0 < tm) (htm2 : tm < 2) (hi : i < nsys) (ht : t < nsys)
    (hpos : posState nsys npr sys) :
    posState nsys npr (tradeEdge npr tm i t sys) := by
  unfold tradeEdge
  refine foldl_inv (posState nsys npr) _ (List.range npr) sys (fun s gn hgn hp => ?_) hpos
  exact posState_tradeGoodStep nsys npr tm i t gn s htm0 htm2 hi ht (List.mem_range.mp hgn) hp

theorem posState_trade_update (nsys npr : ℕ) (tm : ℚ) (sys : Sys)
    (htm0 : 0 < tm) (htm2 : tm < 2)
    (htg : ∀ i, i < nsys → ∀ t, t ∈ (sys i).jumps → t < nsys)
    (hpos : posState nsys npr sys) :
    posState nsys npr (trade_update nsys npr tm sys) := by
  have hreset : posState nsys npr (resetBought nsys npr sys) := by
    intro j hj
    rw [resetBought_apply nsys npr sys j, if_pos hj]
    exact hpos j hj
  have hstep : ∀ s i, i ∈ List.range nsys →
      (posState nsys npr s ∧ graphProfile s = graphProfile sys) →
      (posState nsys npr (tradeSystem npr tm i s)
        ∧ graphProfile (tradeSystem npr tm i s) = graphProfile sys) := by
    intro s i hi hs
    refine ⟨?_, ?_⟩
    · unfold tradeSystem
      have hinner : ∀ s2 a, a ∈ (s i).jumps →
          (posState nsys npr s2 ∧ graphProfile s2 = graphProfile sys) →
          (posState nsys npr (if i < (s2 a).id then tradeEdge npr tm i a s2 else s2)
            ∧ graphProfile (if i < (s2 a).id then tradeEdge npr tm i a s2 else s2)
              = graphProfile sys) := by
        intro s2 a ha hs2
        by_cases hcond : i < (s2 a).id
        · simp only [if_pos hcond]
          have ha2 : a < nsys := by
            refine htg i (List.mem_range.mp hi) a ?_
            rw [← graphProfile_jumps hs.2 i]
            exact ha
          refine ⟨posState_tradeEdge nsys npr tm i a s2 htm0 htm2
              (List.mem_range.mp hi) ha2 hs2.1, ?_⟩
          rw [graphProfile_tradeEdge]
          exact hs2.2
        · simp only [if_neg hcond]; exact hs2
      exact (foldl_inv _ _ ((s i).jumps) s hinner hs).1
    · rw [graphProfile_tradeSystem]; exact hs.2
  have main := foldl_inv
      (fun s => posState nsys npr s ∧ graphProfile s = graphProfile sys)
      (fun s i => tradeSystem npr tm i s) (List.range nsys) (resetBought nsys npr sys)
      hstep ⟨hreset, graphProfile_resetBought nsys npr sys⟩
  exact main.1

theorem posState_produce_consume (nsys npr : ℕ) (pm : ℚ) (sys : Sys)
    (hpm : 0 ≤ pm)
    (hmods : ∀ i, i < nsys → ∀ gn, gn < npr → -18000 < pm * (sys i).prod_mods gn)
    (hpos : posState nsys npr sys) :
    posState nsys npr (produce_consume nsys npr pm sys) := by
  intro j hj
  rw [produce_consume_apply, if_pos hj]
  refine ⟨(hpos j hj).1, fun gn hgn => ?_⟩
  show 0 < produce_consume_arr npr pm (sys j).prod_mods (sys j).stockpiles gn
  rw [produce_consume_arr_apply, if_pos hgn]
  exact production_pos_add pm _ _ hpm ((hpos j hj).2 gn hgn) (hmods j hj gn hgn)

theorem posState_refresh_prices (nsys npr : ℕ) (stack : List Commodity) (sys : Sys)
    (hpos : posState nsys npr sys) :
    posState nsys npr (refresh_prices nsys npr stack sys) := by
  intro j hj
  rw [refresh_prices_apply, if_pos hj]
  exact hpos j hj

theorem posState_econTriple (nsys npr : ℕ) (tm pm : ℚ) (stack : List Commodity) (sys0 sys : Sys)
    (htm0 : 0 < tm) (htm2 : tm < 2) (hpm : 0 ≤ pm)
    (htg : ∀ i, i < nsys → ∀ t, t ∈ (sys0 i).jumps → t < nsys)
    (hmods : ∀ i, i < nsys → ∀ gn, gn < npr → -18000 < pm * (sys0 i).prod_mods gn)
    (hpos : posState nsys npr sys) (hgp : graphProfile sys = graphProfile sys0) :
    posState nsys npr (econTriple nsys npr tm pm stack sys)
      ∧ graphProfile (econTriple nsys npr tm pm stack sys) = graphProfile sys0 := by
  have htg2 : ∀ i, i < nsys → ∀ t, t ∈ (sys i).jumps → t < nsys := by
    intro i hi t htt
    refine htg i hi t ?_
    rw [← graphProfile_jumps hgp i]
    exact htt
  have h1 : posState nsys npr (trade_update nsys npr tm sys) :=
    posState_trade_update nsys npr tm sys htm0 htm2 htg2 hpos
  have hgp1 : graphProfile (trade_update nsys npr tm sys) = graphProfile sys0 := by
    rw [graphProfile_trade_update]; exact hgp
  have hmods2 : ∀ i, i < nsys → ∀ gn, gn < npr →
      -18000 < pm * ((trade_update nsys npr tm sys) i).prod_mods gn := by
    intro i hi gn hgn
    rw [graphProfile_mods hgp1 i]
    exact hmods i hi gn hgn
  have h2 : posState nsys npr (produce_consume nsys npr pm (trade_update nsys npr tm sys)) :=
    posState_produce_consume nsys npr pm _ hpm hmods2 h1
  have h3 := posState_refresh_prices nsys npr stack _ h2
  refine ⟨h3, ?_⟩
  unfold econTriple
  rw [graphProfile_refresh_prices, graphProfile_produce_consume, graphProfile_trade_update]
  exact hgp

theorem posState_econLoop (nsys npr : ℕ) (tm pm : ℚ) (stack : List Commodity) (sys0 : Sys)
    (htm0 : 0 < tm) (htm2 : tm < 2) (hpm : 0 ≤ pm)
    (htg : ∀ i, i < nsys → ∀ t, t ∈ (sys0 i).jumps → t < nsys)
    (hmods : ∀ i, i < nsys → ∀ gn, gn < npr → -18000 < pm * (sys0 i).prod_mods gn) :
    ∀ (fuel i dt : ℕ) (sys : Sys),
      posState nsys npr sys → graphProfile sys = graphProfile sys0 →
      posState nsys npr (econLoop (econTriple nsys npr tm pm stack) fuel i dt sys)
        ∧ graphProfile (econLoop (econTriple nsys npr tm pm stack) fuel i dt sys)
            = graphProfile sys0 := by
  intro fuel
  induction fuel with
  | zero => intro i dt sys hp hg; exact ⟨hp, hg⟩
  | succ f ih =>
      intro i dt sys hp hg
      show posState nsys npr (if i < dt then _ else _) ∧ _
      by_cases hc : i < dt
      · simp only [econLoop, if_pos hc]
        have hstep := posState_econTriple nsys npr tm pm stack sys0 sys
            htm0 htm2 hpm htg hmods hp hg
        exact ih ((i + 10000000) % 4294967296) dt _ hstep.1 hstep.2
      · simp only [econLoop, if_neg hc]
        exact ⟨hp, hg⟩

theorem creditsSum_resetBought (nsys npr n : ℕ) (sys : Sys) :
    creditsSum n (resetBought nsys npr sys) = creditsSum n sys := by
  unfold creditsSum
  refine Finset.sum_congr rfl (fun j _ => ?_)
  rw [resetBought_apply]
  split_ifs <;> rfl

theorem stockSum_resetBought (nsys npr n gn : ℕ) (sys : Sys) :
    stockSum n (resetBought nsys npr sys) gn = stockSum n sys gn := by
  unfold stockSum
  refine Finset.sum_congr rfl (fun j _ => ?_)
  rw [resetBought_apply]
  split_ifs <;> rfl

theorem sums_tradeGoodStep (nsys : ℕ) (tm : ℚ) (i t gn : ℕ) (sys : Sys)
    (hi : i < nsys) (ht : t < nsys) :
    creditsSum nsys (tradeGoodStep tm i t gn sys) = creditsSum nsys sys
    ∧ ∀ gn0, stockSum nsys (tradeGoodStep tm i t gn sys) gn0 = stockSum nsys sys gn0 := by
  unfold tradeGoodStep
  exact ⟨applyTrade_creditsSum _ _ i t gn sys nsys hi ht,
    fun gn0 => applyTrade_stockSum _ _ i t gn sys nsys gn0 hi ht⟩

theorem sums_tradeEdge (nsys npr : ℕ) (tm : ℚ) (i t : ℕ) (sys : Sys)
    (hi : i < nsys) (ht : t < nsys) :
    creditsSum nsys (tradeEdge npr tm i t sys) = creditsSum nsys sys
    ∧ ∀ gn, stockSum nsys (tradeEdge npr tm i t sys) gn = stockSum nsys sys gn := by
  unfold tradeEdge
  have hstep : ∀ s2 gn, gn ∈ List.range npr →
      (creditsSum nsys s2 = creditsSum nsys sys
        ∧ ∀ gn0, stockSum nsys s2 gn0 = stockSum nsys sys gn0) →
      (creditsSum nsys (tradeGoodStep tm i t gn s2) = creditsSum nsys sys
        ∧ ∀ gn0, stockSum nsys (tradeGoodStep tm i t gn s2) gn0 = stockSum nsys sys gn0) := by
    intro s2 gn _ hs2
    have h := sums_tradeGoodStep nsys tm i t gn s2 hi ht
    exact ⟨h.1.trans hs2.1, fun gn0 => (h.2 gn0).trans (hs2.2 gn0)⟩
  exact foldl_inv _ _ (List.range npr) sys hstep ⟨rfl, fun _ => rfl⟩

theorem sums_trade_update (nsys npr : ℕ) (tm : ℚ) (sys : Sys)
    (htg : ∀ i, i < nsys → ∀ t, t ∈ (sys i).jumps → t < nsys) :
    creditsSum nsys (trade_update nsys npr tm sys) = creditsSum nsys sys
    ∧ ∀ gn, stockSum nsys (trade_update nsys npr tm sys) gn = stockSum nsys sys gn := by
  have hstep : ∀ s i, i ∈ List.range nsys →
      ((creditsSum nsys s = creditsSum nsys sys
          ∧ ∀ gn, stockSum nsys s gn = stockSum nsys sys gn)
        ∧ graphProfile s = graphProfile sys) →
      ((creditsSum nsys (tradeSystem npr tm i s) = creditsSum nsys sys
          ∧ ∀ gn, stockSum nsys (tradeSystem npr tm i s) gn = stockSum nsys sys gn)
        ∧ graphProfile (tradeSystem npr tm i s) = graphProfile sys) := by
    intro s i hi hs
    refine ⟨?_, ?_⟩
    · unfold tradeSystem
      have hinner : ∀ s2 a, a ∈ (s i).jumps →
          ((creditsSum nsys s2 = creditsSum nsys sys
              ∧ ∀ gn, stockSum nsys s2 gn = stockSum nsys sys gn)
            ∧ graphProfile s2 = graphProfile sys) →
          ((creditsSum nsys (if i < (s2 a).id then tradeEdge npr tm i a s2 else s2)
              = creditsSum nsys sys
            ∧ ∀ gn, stockSum nsys (if i < (s2 a).id then tradeEdge npr tm i a s2 else s2) gn
                = stockSum nsys sys gn)
            ∧ graphProfile (if i < (s2 a).id then tradeEdge npr tm i a s2 else s2)
                = graphProfile sys) := by
        intro s2 a ha hs2
        by_cases hcond : i < (s2 a).id
        · simp only [if_pos hcond]
          have ha2 : a < nsys := by
            refine htg i (List.mem_range.mp hi) a ?_
            rw [← graphProfile_jumps hs.2 i]
            exact ha
          have h := sums_tradeEdge nsys npr tm i a s2 (List.mem_range.mp hi) ha2
          refine ⟨⟨h.1.trans hs2.1.1, fun gn => (h.2 gn).trans (hs2.1.2 gn)⟩, ?_⟩
          rw [graphProfile_tradeEdge]
          exact hs2.2
        · simp only [if_neg hcond]; exact hs2
      exact (foldl_inv _ _ ((s i).jumps) s hinner hs).1
    · rw [graphProfile_tradeSystem]; exact hs.2
  have main := foldl_inv
      (fun s => (creditsSum nsys s = creditsSum nsys sys
          ∧ ∀ gn, stockSum nsys s gn = stockSum nsys sys gn)
        ∧ graphProfile s = graphProfile sys)
      (fun s i => tradeSystem npr tm i s) (List.range nsys) (resetBought nsys npr sys)
      hstep
      ⟨⟨creditsSum_resetBought nsys npr nsys sys, fun gn => stockSum_resetBought nsys npr nsys gn sys⟩,
        graphProfile_resetBought nsys npr sys⟩
  exact main.1

/-- Claim C1: a single `trade_update` pass conserves, in exact arithmetic,
the total credits over all systems and, for every commodity slot, the total
stockpile over all systems, because each processed edge applies exactly
antisymmetric updates to its two endpoints.  (The only assumption is that
every jump target is a valid stack index.) -/
theorem claim_C1 (nsys npr : ℕ) (tm : ℚ) (sys : Sys)
    (htg : ∀ i, i < nsys → ∀ t, t ∈ (sys i).jumps → t < nsys) :
    (∑ j in Finset.range nsys, (trade_update nsys npr tm sys j).credits)
        = (∑ j in Finset.range nsys, (sys j).credits)
    ∧ ∀ gn, (∑ j in Finset.range nsys, (trade_update nsys npr tm sys j).stockpiles gn)
        = (∑ j in Finset.range nsys, (sys j).stockpiles gn) :=
  sums_trade_update nsys npr tm sys htg

theorem claim_C1_witness :
    (∑ j in Finset.range 2, (trade_update 2 1 (99/100) exG j).credits) = (40 : ℚ)
    ∧ (∑ j in Finset.range 2, (trade_update 2 1 (99/100) exG j).stockpiles 0) = (20 : ℚ) := by
  have h := claim_C1 2 1 (99/100) exG (by decide)
  constructor
  · rw [h.1]; norm_num [Finset.sum_range_succ, exG]
  · rw [h.2 0]; norm_num [Finset.sum_range_succ, exG]

/-- Claim C4: `produce_consume` replaces every priced stockpile `g` of every
system by `stockpiles[g] + f(prod_mods[g], stockpiles[g])`, where for
modifier `≥ 0` the adjustment is `production_rate * modifier * (K_prod / stockpile)`
and for modifier `< 0` it is `production_rate * modifier * (stockpile / K_cons)`,
with the engine constants `K_prod = 180000` and `K_cons = 18000`. -/
theorem claim_C4 (nsys npr : ℕ) (pm : ℚ) (sys : Sys) (i gn : ℕ)
    (hi : i < nsys) (hgn : gn < npr) :
    (produce_consume nsys npr pm sys i).stockpiles gn
        = (sys i).stockpiles gn
          + production pm ((sys i).prod_mods gn) ((sys i).stockpiles gn)
    ∧ (0 ≤ (sys i).prod_mods gn →
        production pm ((sys i).prod_mods gn) ((sys i).stockpiles gn)
          = pm * (sys i).prod_mods gn * (180000 / (sys i).stockpiles gn))
    ∧ ((sys i).prod_mods gn < 0 →
        production pm ((sys i).prod_mods gn) ((sys i).stockpiles gn)
          = pm * (sys i).prod_mods gn * ((sys i).stockpiles gn / 18000)) := by
  refine ⟨?_, fun hm => ?_, fun hm => ?_⟩
  · rw [produce_consume_apply, if_pos hi]
    show produce_consume_arr npr pm (sys i).prod_mods (sys i).stockpiles gn = _
    rw [produce_consume_arr_apply, if_pos hgn]
  · rw [production, if_pos hm]
  · rw [production, if_neg (not_le.mpr hm)]

theorem claim_C4_witness :
    (produce_consume 1 1 (1/10) exGneg 0).stockpiles 0 = (-900000 : ℚ) := by
  have h := claim_C4 1 1 (1/10) exGneg 0 0 (by decide) (by decide)
  rw [h.1, h.2.2 (by norm_num [exGneg])]
  norm_num [exGneg]

/-- Claim C8: whenever the requested quantity would leave the stockpile
within one unit of depletion (`p_goods - n_tons ≤ 1`), `price_of_buying`
returns the sentinel `0xFFFFFFFFFFFFFFF0` (16 below the top of the 64-bit
range) instead of any computed per-unit price sum. -/
theorem claim_C8 (n : ℤ) (c s : ℚ) (h : s - (n : ℚ) ≤ 1) :
    price_of_buying n c s = 18446744073709551600
    ∧ (18446744073709551600 : ℤ) = 2 ^ 64 - 16 := by
  refine ⟨?_, by norm_num⟩
  rw [price_of_buying, if_pos h]

theorem claim_C8_witness : price_of_buying 5 7 3 = 18446744073709551600 :=
  (claim_C8 5 7 3 (by norm_num)).1

/-- Claim C9: with a positive production rate, for fixed modifier `m > 0` the
per-tick adjustment `production(m, goods)` is strictly decreasing in the
stockpile over positive stockpiles, and for fixed `m < 0` the adjustment is
negative with strictly increasing magnitude. -/
theorem claim_C9 (pm m g1 g2 : ℚ) (hpm : 0 < pm) (hg1 : 0 < g1) (h12 : g1 < g2) :
    (0 < m → production pm m g2 < production pm m g1)
    ∧ (m < 0 → production pm m g1 < 0 ∧ |production pm m g1| < |production pm m g2|) := by
  have hg2 : 0 < g2 := lt_trans hg1 h12
  constructor
  · intro hm
    rw [production, if_pos (le_of_lt hm), production, if_pos (le_of_lt hm)]
    have hdiv : (180000:ℚ) / g2 < 180000 / g1 :=
      div_lt_div_of_pos_left (by norm_num) hg1 h12
    exact mul_lt_mul_of_pos_left hdiv (mul_pos hpm hm)
  · intro hm
    have hmm : pm * m < 0 := mul_neg_of_pos_of_neg hpm hm
    have hneg1 : pm * m * (g1 / 18000) < 0 :=
      mul_neg_of_neg_of_pos hmm (by positivity)
    have hneg2 : pm * m * (g2 / 18000) < 0 :=
      mul_neg_of_neg_of_pos hmm (by positivity)
    have hlt : pm * m * (g2 / 18000) < pm * m * (g1 / 18000) := by
      have hdd : g1 / 18000 < g2 / 18000 := by linarith
      exact mul_lt_mul_of_neg_left hdd hmm
    simp only [production, if_neg (not_le.mpr hm)]
    refine ⟨hneg1, ?_⟩
    rw [abs_of_neg hneg1, abs_of_neg hneg2]
    linarith

theorem claim_C9_witness :
    production (1/10) 3 20000 < production (1/10) 3 10000
    ∧ production (1/10) (-3) 10000 < 0
    ∧ |production (1/10) (-3) 10000| < |production (1/10) (-3) 20000| := by
  have h := claim_C9 (1/10) 3 10000 20000 (by norm_num) (by norm_num) (by norm_num)
  have h2 := claim_C9 (1/10) (-3) 10000 20000 (by norm_num) (by norm_num) (by norm_num)
  exact ⟨h.1 (by norm_num), (h2.2 (by norm_num)).1, (h2.2 (by norm_num)).2⟩

theorem econFindIdx_none (l : List ℕ) (idx : ℕ) (h : idx ∉ l) : econFindIdx l idx = none := by
  induction l with
  | nil => rfl
  | cons c r ih =>
      have hc : ¬ c = idx := by
        intro hc
        exact h (hc ▸ List.mem_cons_self c r)
      have hr : idx ∉ r := fun hr => h (List.mem_cons_of_mem c hr)
      rw [econFindIdx, if_neg hc, ih hr]
      rfl

theorem econFindIdx_spec (l : List ℕ) (idx : ℕ) :
    ∀ i, econFindIdx l idx = some i →
      l[i]? = some idx ∧ ∀ j, j < i → l[j]? ≠ some idx := by
  induction l with
  | nil => intro i h; simp [econFindIdx] at h
  | cons c r ih =>
      intro i h
      rw [econFindIdx] at h
      by_cases hc : c = idx
      · rw [if_pos hc] at h
        have h0 : i = 0 := (Option.some.inj h).symm
        subst h0
        subst hc
        exact ⟨by simp, fun j hj => absurd hj (Nat.not_lt_zero j)⟩
      · rw [if_neg hc] at h
        cases heq : econFindIdx r idx with
        | none => rw [heq] at h; exact Option.noConfusion h
        | some k =>
            rw [heq] at h
            have hik : i = k + 1 := (Option.some.inj h).symm
            subst hik
            have hrk := ih k heq
            refine ⟨?_, fun j hj => ?_⟩
            · rw [List.getElem?_cons_succ]
              exact hrk.1
            cases j with
            | zero =>
                simp only [List.getElem?_cons_zero]
                intro hcj
                exact hc (Option.some.inj hcj)
            | succ j2 =>
                simp only [List.getElem?_cons_succ]
                exact hrk.2 j2 (Nat.lt_of_succ_lt_succ hj)

/-- Claim C10: for a commodity whose index does not occur in `econ_comm`,
`economy_getPrice` returns 0; otherwise it returns `PRICE(credits, stockpiles[i])`
truncated toward zero, where `i` is the first `econ_comm` slot holding the
index; the planet argument is ignored entirely (and the function reads but
never writes the galaxy state, being modelled as a pure function). -/
theorem claim_C10 (econ_comm : List ℕ) (idx : ℕ) (sys : StarSystem) (p p2 : Planet) :
    economy_getPrice econ_comm idx sys p = economy_getPrice econ_comm idx sys p2
    ∧ (idx ∉ econ_comm → economy_getPrice econ_comm idx sys p = 0)
    ∧ (∀ i, econFindIdx econ_comm idx = some i →
        economy_getPrice econ_comm idx sys p = truncQ (PRICE sys.credits (sys.stockpiles i))
        ∧ econ_comm[i]? = some idx ∧ ∀ j, j < i → econ_comm[j]? ≠ some idx) := by
  refine ⟨rfl, fun h => ?_, fun i hi => ?_⟩
  · unfold economy_getPrice
    rw [econFindIdx_none econ_comm idx h]
  · unfold economy_getPrice
    rw [hi]
    exact ⟨rfl, (econFindIdx_spec econ_comm idx i hi).1, (econFindIdx_spec econ_comm idx i hi).2⟩

theorem claim_C10_witness :
    economy_getPrice [2, 0] 0 (exG1 0) ⟨none⟩ = 2
    ∧ economy_getPrice [2, 3] 0 (exG1 0) ⟨none⟩ = 0 := by
  have h := claim_C10 [2, 0] 0 (exG1 0) ⟨none⟩ ⟨some fun _ => 1⟩
  have h2 := claim_C10 [2, 3] 0 (exG1 0) ⟨none⟩ ⟨some fun _ => 1⟩
  refine ⟨?_, h2.2.1 (by decide)⟩
  rw [(h.2.2 1 (by rfl)).1]
  norm_num [exG1, PRICE, truncQ]

/-- Claim C3 as stated is false on the code: no clamp exists anywhere, and a
single `produce_consume` sends the strictly positive stockpile 100000 to
-900000 when the production modifier is -1800000 (production rate 0.1). -/
theorem claim_C3_cex :
    (exGneg 0).stockpiles 0 = 100000
    ∧ ((produce_consume 1 1 (1/10) exGneg) 0).stockpiles 0 = -900000 := by
  constructor
  · norm_num [exGneg]
  · rw [produce_consume_apply 1 1 (1/10) exGneg 0, if_pos (by norm_num)]
    show produce_consume_arr 1 (1/10) (exGneg 0).prod_mods (exGneg 0).stockpiles 0 = _
    rw [produce_consume_arr_apply, if_pos (by norm_num)]
    rw [production, if_neg (by norm_num [exGneg])]
    norm_num [exGneg]

/-- Claim C3 amended: the engine contains no clamping at all; instead strict
positivity is preserved structurally, under the side conditions the code
actually relies on: `0 < trade_modifier < 2`, `production_modifier ≥ 0`,
valid jump targets, and every modifier above the consumption threshold
(`production_modifier * prod_mods[g] > -K_cons` with `K_cons = 18000`).
Under these, `trade_update`, `produce_consume` and every `economy_update`
keep all credits and priced stockpiles strictly positive; without the
modifier bound the property fails (see the counterexample). -/
theorem claim_C3 (nsys npr : ℕ) (tm pm : ℚ) (stack : List Commodity) (sys : Sys)
    (htm0 : 0 < tm) (htm2 : tm < 2) (hpm : 0 ≤ pm)
    (htg : ∀ i, i < nsys → ∀ t, t ∈ (sys i).jumps → t < nsys)
    (hmods : ∀ i, i < nsys → ∀ gn, gn < npr → -18000 < pm * (sys i).prod_mods gn)
    (hpos : posState nsys npr sys) :
    posState nsys npr (trade_update nsys npr tm sys)
    ∧ posState nsys npr (produce_consume nsys npr pm sys)
    ∧ ∀ dt, posState nsys npr (economy_update nsys npr tm pm stack dt sys) := by
  refine ⟨posState_trade_update nsys npr tm sys htm0 htm2 htg hpos,
    posState_produce_consume nsys npr pm sys hpm hmods hpos, fun dt => ?_⟩
  unfold economy_update
  have h0 := posState_refresh_prices nsys npr stack sys hpos
  have hg0 : graphProfile (refresh_prices nsys npr stack sys) = graphProfile sys :=
    graphProfile_refresh_prices nsys npr stack sys
  exact (posState_econLoop nsys npr tm pm stack sys htm0 htm2 hpm htg hmods dt 0 dt _ h0 hg0).1

theorem claim_C3_witness :
    posState 2 1 (trade_update 2 1 (99/100) exG)
    ∧ posState 2 1 (economy_update 2 1 (99/100) (1/10) [] 10000000 exG) := by
  have hm : ∀ i, i < 2 → ∀ gn, gn < 1 → -18000 < (1/10 : ℚ) * (exG i).prod_mods gn := by
    intro i hi gn hgn
    interval_cases i <;> norm_num [exG]
  have hp : posState 2 1 exG := by
    intro i hi
    interval_cases i <;>
      exact ⟨by norm_num [exG], fun gn hgn => by norm_num [exG]⟩
  have h := claim_C3 2 1 (99/100) (1/10) [] exG (by norm_num) (by norm_num) (by norm_num)
      (by decide) hm hp
  exact ⟨h.1, h.2.2 10000000⟩

theorem econLoop_iterate {G : Type} (step : G → G) :
    ∀ (fuel i dt : ℕ) (g : G),
      (dt - i + 9999999) / 10000000 ≤ fuel →
      i + ((dt - i + 9999999) / 10000000) * 10000000 < 4294967296 →
      econLoop step fuel i dt g = step^[(dt - i + 9999999) / 10000000] g := by
  intro fuel
  induction fuel with
  | zero =>
      intro i dt g hr _
      have hr0 : (dt - i + 9999999) / 10000000 = 0 := Nat.le_zero.mp hr
      rw [hr0]
      rfl
  | succ f ih =>
      intro i dt g hr hw
      by_cases hc : i < dt
      · have hge : 1 ≤ (dt - i + 9999999) / 10000000 := by omega
        have hnext : (i + 10000000) % 4294967296 = i + 10000000 := by
          apply Nat.mod_eq_of_lt
          omega
        have hr2 : (dt - (i + 10000000) + 9999999) / 10000000
            = (dt - i + 9999999) / 10000000 - 1 := by omega
        show (if i < dt then econLoop step f ((i + 10000000) % 4294967296) dt (step g) else g)
            = step^[(dt - i + 9999999) / 10000000] g
        have hrr : (dt - i + 9999999) / 10000000 - 1 + 1 = (dt - i + 9999999) / 10000000 := by
          omega
        rw [if_pos hc, hnext, ih (i + 10000000) dt (step g) (by omega) (by omega), hr2,
            ← Function.iterate_succ_apply step ((dt - i + 9999999) / 10000000 - 1) g,
            Nat.succ_eq_add_one, hrr]
      · have hr0 : (dt - i + 9999999) / 10000000 = 0 := by omega
        show (if i < dt then econLoop step f ((i + 10000000) % 4294967296) dt (step g) else g)
            = step^[(dt - i + 9999999) / 10000000] g
        rw [if_neg hc, hr0]
        rfl

set_option maxRecDepth 40000 in
/-- Claim C5 as stated fails for large `dt`: the `unsigned int` loop counter
wraps modulo `2^32`.  At `dt = 4290000001` the claimed count
`ceil(dt / 10000000)` is 430, but running the very loop of `economy_update`
with a step counter as the state shows that at least 431 sub-steps execute:
the 430th increment takes the counter to `4300000000 % 2^32 = 5032704`,
which is again below `dt`, so the loop keeps going. -/
theorem claim_C5_cex :
    econLoop Nat.succ 431 0 4290000001 0 = 431
    ∧ (4290000001 + 9999999) / 10000000 = 430 := by
  constructor
  · rfl
  · norm_num

/-- Claim C5 amended: for every `dt ≤ 4290000000` (so that the 32-bit loop
counter never wraps), `economy_update` reprices once and then runs the triple
{trade; produce/consume; reprice} exactly `ceil(dt / 10000000)` times, a
final partial increment executing at full weight; for `dt = 0` only the
initial repricing happens.  For larger `dt` the unsigned counter wraps and
the triple runs more than `ceil(dt / 10000000)` times (see the
counterexample). -/
theorem claim_C5 (nsys npr : ℕ) (tm pm : ℚ) (stack : List Commodity) (dt : ℕ) (sys : Sys)
    (hdt : dt ≤ 4290000000) :
    economy_update nsys npr tm pm stack dt sys
      = (econTriple nsys npr tm pm stack)^[(dt + 9999999) / 10000000]
          (refresh_prices nsys npr stack sys)
    ∧ (dt ≤ ((dt + 9999999) / 10000000) * 10000000
        ∧ ((dt + 9999999) / 10000000) * 10000000 < dt + 10000000)
    ∧ (dt = 0 → economy_update nsys npr tm pm stack dt sys = refresh_prices nsys npr stack sys) := by
  have h1 : economy_update nsys npr tm pm stack dt sys
      = (econTriple nsys npr tm pm stack)^[(dt - 0 + 9999999) / 10000000]
          (refresh_prices nsys npr stack sys) := by
    unfold economy_update
    apply econLoop_iterate
    · omega
    · omega
  rw [Nat.sub_zero] at h1
  refine ⟨h1, by omega, fun h0 => ?_⟩
  subst h0
  simpa using h1

theorem claim_C5_witness :
    economy_update 1 1 (99/100) (1/10) [] 20000000 exG1
      = (econTriple 1 1 (99/100) (1/10) [])^[2] (refresh_prices 1 1 [] exG1) := by
  have h1 := (claim_C5 1 1 (99/100) (1/10) [] 20000000 exG1 (by norm_num)).1
  norm_num at h1
  exact h1

/-- Claim C6 as stated is false: loading a catalog with base prices [0, 5]
makes catalog entry 1 the only priced commodity (`econ_comm = [1]`, base
price 5), yet `refresh_prices` computes `prices[0]` from
`commodity_stack[0].price = 0`, giving 0 instead of `5 * P(100, 50) = 10`. -/
theorem claim_C6_cex :
    (commodity_load [0, 5]).econ_comm = [1]
    ∧ (refresh_prices 1 1 (commodity_load [0, 5]).stack exG1 0).prices 0 = 0
    ∧ (((commodity_load [0, 5]).stack.getD 1 ⟨0, 0⟩).price : ℚ)
        * PRICE ((exG1 0).credits) ((exG1 0).stockpiles 0) = 10 := by
  have hstack : (commodity_load [0, 5]).stack = [⟨0, 0⟩, ⟨5, 0⟩] := rfl
  refine ⟨rfl, ?_, ?_⟩
  · rw [refresh_prices_apply, if_pos (by norm_num)]
    show refresh_prices_arr 1 (commodity_load [0, 5]).stack (exG1 0).credits
        (exG1 0).stockpiles (exG1 0).prices 0 = 0
    rw [refresh_prices_arr_apply, if_pos (by norm_num), hstack]
    norm_num [exG1, PRICE, List.getD]
  · rw [hstack]
    norm_num [exG1, PRICE, List.getD]

/-- Claim C6 amended: `refresh_prices` sets, for every system and every
priced slot `g`, `prices[g] = commodity_stack[g].price * P(credits, stockpiles[g])`:
the base price used is that of the g-th CATALOG entry (the source indexes
`commodity_stack` directly by `goodnum`), not of the catalog entry whose
priced index is `g` under the load-time `econ_comm` mapping; the two agree
only when the first `econ_nprices` catalog slots are exactly the priced
commodities.  `P` (spec-modelled as credits/stockpile) rises with credits
and falls as the stockpile rises. -/
theorem claim_C6 (nsys npr : ℕ) (stack : List Commodity) (sys : Sys) (i gn : ℕ)
    (hi : i < nsys) (hgn : gn < npr) :
    (refresh_prices nsys npr stack sys i).prices gn
        = ((stack.getD gn ⟨0, 0⟩).price : ℚ) * PRICE ((sys i).credits) ((sys i).stockpiles gn)
    ∧ (∀ c c2 s : ℚ, 0 < s → c < c2 → PRICE c s < PRICE c2 s)
    ∧ (∀ c s s2 : ℚ, 0 < c → 0 < s → s < s2 → PRICE c s2 < PRICE c s) := by
  refine ⟨?_, ?_, ?_⟩
  · rw [refresh_prices_apply, if_pos hi]
    show refresh_prices_arr npr stack (sys i).credits (sys i).stockpiles (sys i).prices gn = _
    rw [refresh_prices_arr_apply, if_pos hgn]
  · intro c c2 s hs hcc
    unfold PRICE
    exact (div_lt_div_iff_of_pos_right hs).mpr hcc
  · intro c s s2 hc hs hss
    unfold PRICE
    exact div_lt_div_of_pos_left hc hs hss

theorem claim_C6_witness :
    (refresh_prices 1 1 [⟨7, 0⟩] exG1 0).prices 0 = 14 := by
  have h := (claim_C6 1 1 [⟨7, 0⟩] exG1 0 0 (by norm_num) (by norm_num)).1
  rw [h]
  norm_num [exG1, PRICE, List.getD]

theorem sumPlanets_all_init (comm : ℕ) :
    ∀ (planets : List Planet) (acc : ℚ),
      (∀ p, p ∈ planets → p.prod_mods.isSome) →
      sumPlanets comm planets acc
        = acc + (planets.map (fun p => (p.prod_mods.getD (fun _ => 0)) comm)).sum := by
  intro planets
  induction planets with
  | nil => intro acc _; simp [sumPlanets]
  | cons p ps ih =>
      intro acc hinit
      have hp := hinit p (List.mem_cons_self p ps)
      cases hpm : p.prod_mods with
      | none => rw [hpm] at hp; simp at hp
      | some f =>
          rw [sumPlanets, hpm, if_neg (by simp),
            ih _ (fun q hq => hinit q (List.mem_cons_of_mem p hq))]
          simp [hpm]
          ring

theorem sumPlanets_zero (planets : List Planet) :
    ∀ acc : ℚ,
      sumPlanets 0 planets acc
        = acc + ((planets.takeWhile (fun p => p.prod_mods.isSome)).map
            (fun p => (p.prod_mods.getD (fun _ => 0)) 0)).sum := by
  induction planets with
  | nil => intro acc; simp [sumPlanets]
  | cons p ps ih =>
      intro acc
      cases hpm : p.prod_mods with
      | none =>
          rw [sumPlanets, hpm, if_pos (by simp), List.takeWhile_cons]
          simp [hpm]
      | some f =>
          rw [sumPlanets, hpm, if_neg (by simp), ih, List.takeWhile_cons]
          simp [hpm]
          ring

/-- Claim C7 as stated is false: with the planet list
[uninitialized, modifier 5] the claim predicts that only the uninitialized
planet is skipped and aggregation continues (sum over the initialized
planets: 5), but the code's planet loop `break`s at the uninitialized planet
and leaves the system modifier at 0. -/
theorem claim_C7_cex :
    (refresh_economy 1 1 exGpl 0).prod_mods 0 = 0
    ∧ (((exGpl 0).planets.filter (fun p => p.prod_mods.isSome)).map
        (fun p => (p.prod_mods.getD (fun _ => 0)) 0)).sum = 5
    ∧ (0 : ℚ) ≠ 5 := by
  refine ⟨?_, ?_, by norm_num⟩
  · rw [refresh_economy_apply, if_pos (by norm_num)]
    show refresh_economy_arr 1 (exGpl 0).planets (exGpl 0).prod_mods 0 = 0
    rw [refresh_economy_arr_apply, if_pos (by norm_num)]
    show sumPlanets 0 [⟨none⟩, ⟨some fun _ => 5⟩] 0 = 0
    rw [sumPlanets, if_pos (by simp)]
  · show (([(⟨none⟩ : Planet), ⟨some fun _ => 5⟩].filter (fun p => p.prod_mods.isSome)).map
        (fun p => (p.prod_mods.getD (fun _ => 0)) 0)).sum = 5
    simp [List.filter]

/-- Claim C7 amended: `refresh_economy` sums planet modifiers per system and
commodity, but an uninitialized planet is not merely skipped: the C guard
(`planet->prod_mods + comm == NULL`) detects the condition only for
commodity 0, and the loop then `break`s, so for commodity 0 the sum covers
only the planets BEFORE the first uninitialized one (that planet and all
later planets are dropped); for `comm > 0` the guard cannot fire (for an
uninitialized planet the C code would dereference a null array), and with
every planet initialized the modifier is the sum over all planets as the
claim states. -/
theorem claim_C7 (nsys npr : ℕ) (sys : Sys) (i comm : ℕ)
    (hi : i < nsys) (hcomm : comm < npr) :
    ((∀ p, p ∈ (sys i).planets → p.prod_mods.isSome) →
      (refresh_economy nsys npr sys i).prod_mods comm
        = ((sys i).planets.map (fun p => (p.prod_mods.getD (fun _ => 0)) comm)).sum)
    ∧ (comm = 0 →
      (refresh_economy nsys npr sys i).prod_mods comm
        = (((sys i).planets.takeWhile (fun p => p.prod_mods.isSome)).map
            (fun p => (p.prod_mods.getD (fun _ => 0)) 0)).sum) := by
  have hbase : (refresh_economy nsys npr sys i).prod_mods comm
      = sumPlanets comm (sys i).planets 0 := by
    rw [refresh_economy_apply, if_pos hi]
    show refresh_economy_arr npr (sys i).planets (sys i).prod_mods comm = _
    rw [refresh_economy_arr_apply, if_pos hcomm]
  constructor
  · intro hinit
    rw [hbase, sumPlanets_all_init comm (sys i).planets 0 hinit]
    simp
  · intro h0
    subst h0
    rw [hbase, sumPlanets_zero (sys i).planets 0]
    simp

theorem claim_C7_witness :
    (refresh_economy 1 1 exGpl 0).prod_mods 0
      = (((exGpl 0).planets.takeWhile (fun p => p.prod_mods.isSome)).map
          (fun p => (p.prod_mods.getD (fun _ => 0)) 0)).sum := by
  exact (claim_C7 1 1 exGpl 0 0 (by norm_num) (by norm_num)).2 rfl

theorem tradeSystem_eq_filter (npr : ℕ) (tm : ℚ) (i : ℕ) (sys0 : Sys) :
    ∀ (jl : List ℕ) (s : Sys), (∀ j, (s j).id = (sys0 j).id) →
      jl.foldl (fun s2 t => if i < (s2 t).id then tradeEdge npr tm i t s2 else s2) s
        = ((jl.filter (fun t => decide (i < (sys0 t).id))).map (fun t => (i, t))).foldl
            (fun s2 e => tradeEdge npr tm e.1 e.2 s2) s := by
  intro jl
  induction jl with
  | nil => intro s _; rfl
  | cons a r ih =>
      intro s hid
      rw [List.foldl_cons, List.filter_cons]
      by_cases hcond : i < (s a).id
      · have hd : decide (i < (sys0 a).id) = true := by
          rw [← hid a]; exact decide_eq_true hcond
        rw [if_pos hcond, hd]
        simp only [if_true]
        rw [List.map_cons, List.foldl_cons]
        refine ih (tradeEdge npr tm i a s) (fun j => ?_)
        exact (graphProfile_id (graphProfile_tradeEdge npr tm i a s) j).trans (hid j)
      · have hd : decide (i < (sys0 a).id) = false := by
          rw [← hid a]; exact decide_eq_false hcond
        rw [if_neg hcond, hd]
        simp only [Bool.false_eq_true, if_false]
        exact ih s hid

theorem trade_update_eq_edges (nsys npr : ℕ) (tm : ℚ) (sys : Sys) :
    trade_update nsys npr tm sys
      = (edgeList nsys sys).foldl (fun s e => tradeEdge npr tm e.1 e.2 s)
          (resetBought nsys npr sys) := by
  have main : ∀ (l : List ℕ) (s : Sys),
      (∀ j, (s j).id = (sys j).id) → (∀ j, (s j).jumps = (sys j).jumps) →
      l.foldl (fun s2 i => tradeSystem npr tm i s2) s
        = (l.flatMap (fun i => ((sys i).jumps.filter (fun t => decide (i < (sys t).id))).map
            (fun t => (i, t)))).foldl (fun s2 e => tradeEdge npr tm e.1 e.2 s2) s := by
    intro l
    induction l with
    | nil => intro s _ _; rfl
    | cons a r ih =>
        intro s hid hjumps
        rw [List.foldl_cons, List.flatMap_cons, List.foldl_append]
        have h1 : tradeSystem npr tm a s
            = (((sys a).jumps.filter (fun t => decide (a < (sys t).id))).map
                (fun t => (a, t))).foldl (fun s2 e => tradeEdge npr tm e.1 e.2 s2) s := by
          unfold tradeSystem
          rw [hjumps a]
          exact tradeSystem_eq_filter npr tm a sys (sys a).jumps s hid
        rw [h1]
        have hgp : graphProfile ((((sys a).jumps.filter (fun t => decide (a < (sys t).id))).map
            (fun t => (a, t))).foldl (fun s2 e => tradeEdge npr tm e.1 e.2 s2) s)
            = graphProfile s :=
          foldl_graphProfile (fun s2 (e : ℕ × ℕ) => tradeEdge npr tm e.1 e.2 s2)
            (fun s2 e => graphProfile_tradeEdge npr tm e.1 e.2 s2) _ s
        exact ih _ (fun j => (graphProfile_id hgp j).trans (hid j))
          (fun j => (graphProfile_jumps hgp j).trans (hjumps j))
  unfold trade_update edgeList
  exact main (List.range nsys) (resetBought nsys npr sys)
    (fun j => graphProfile_id (graphProfile_resetBought nsys npr sys) j)
    (fun j => graphProfile_jumps (graphProfile_resetBought nsys npr sys) j)

theorem count_bind_first (a b : ℕ) (F : ℕ → List (ℕ × ℕ))
    (hF : ∀ i e, e ∈ F i → e.1 = i) :
    ∀ l : List ℕ, l.Nodup → a ∈ l → (l.flatMap F).count (a, b) = (F a).count (a, b) := by
  intro l
  induction l with
  | nil => intro _ h; exact absurd h (List.not_mem_nil a)
  | cons c r ih =>
      intro hnd hmem
      rw [List.flatMap_cons, List.count_append]
      rw [List.nodup_cons] at hnd
      rcases List.mem_cons.mp hmem with hac | har
      · subst hac
        have hz : (r.flatMap F).count (a, b) = 0 := by
          apply List.count_eq_zero.mpr
          intro hcontra
          rcases List.mem_flatMap.mp hcontra with ⟨i, hir, hei⟩
          have h1 : a = i := hF i (a, b) hei
          exact hnd.1 (h1 ▸ hir)
        rw [hz, add_zero]
      · have hac : a ≠ c := by
          intro h
          subst h
          exact hnd.1 har
        have hz : (F c).count (a, b) = 0 := by
          apply List.count_eq_zero.mpr
          intro hcontra
          exact hac (hF c (a, b) hcontra)
        rw [hz, ih hnd.2 har, zero_add]

theorem count_map_pair (a b : ℕ) :
    ∀ l : List ℕ, ((l.map (fun t => (a, t))).count (a, b)) = l.count b := by
  intro l
  induction l with
  | nil => rfl
  | cons c r ih =>
      rw [List.map_cons, List.count_cons, List.count_cons, ih]
      by_cases hcb : b = c
      · subst hcb; simp
      · have h1 : ((a, c) == (a, b)) = false := by
          apply beq_eq_false_iff_ne.mpr
          intro h
          exact hcb (congrArg Prod.snd h).symm
        have h2 : (c == b) = false := by
          apply beq_eq_false_iff_ne.mpr
          intro h
          exact hcb h.symm
        rw [h1, h2]

theorem edgeList_mem (nsys : ℕ) (sys : Sys) (a b : ℕ) :
    (a, b) ∈ edgeList nsys sys ↔ a < nsys ∧ b ∈ (sys a).jumps ∧ a < (sys b).id := by
  unfold edgeList
  constructor
  · intro h
    rcases List.mem_flatMap.mp h with ⟨i, hi, hmem⟩
    rcases List.mem_map.mp hmem with ⟨t, htf, hte⟩
    have h1 : i = a := congrArg Prod.fst hte
    have h2 : t = b := congrArg Prod.snd hte
    subst h1
    subst h2
    have h3 := List.mem_filter.mp htf
    exact ⟨List.mem_range.mp hi, h3.1, of_decide_eq_true h3.2⟩
  · intro h
    refine List.mem_flatMap.mpr ⟨a, List.mem_range.mpr h.1, ?_⟩
    refine List.mem_map.mpr ⟨b, ?_, rfl⟩
    exact List.mem_filter.mpr ⟨h.2.1, decide_eq_true h.2.2⟩

theorem edgeList_count_one (nsys : ℕ) (sys : Sys) (a b : ℕ)
    (ha : a < nsys) (hmem : b ∈ (sys a).jumps)
    (hidb : a < (sys b).id) (hnd : ((sys a).jumps).Nodup) :
    (edgeList nsys sys).count (a, b) = 1 := by
  unfold edgeList
  rw [count_bind_first a b _ ?hF (List.range nsys) (List.nodup_range nsys)
      (List.mem_range.mpr ha)]
  case hF =>
    intro i e he
    rcases List.mem_map.mp he with ⟨t, _, hte⟩
    rw [← hte]
  rw [count_map_pair]
  refine List.count_eq_one_of_mem (hnd.filter _) ?_
  exact List.mem_filter.mpr ⟨hmem, decide_eq_true hidb⟩

/-- Claim C2: a `trade_update` pass (after the bought reset) processes
exactly the edges of `edgeList`: the pass equals a fold of `tradeEdge` over
that list; every listed edge goes out of the endpoint with the strictly
smaller identifier; in a well-formed galaxy (ids equal stack indices,
symmetric duplicate-free jump lists with in-range targets) every undirected
jump edge is processed exactly once, as the pair (lower, higher), and never
in the opposite orientation; and each per-good step applies exactly the
claimed `price`/`trade` formulas to the states current at processing time,
moving `price*trade` credits and `trade` units of stock between the two
endpoints in opposite directions. -/
theorem claim_C2 (nsys npr : ℕ) (tm : ℚ) (sys : Sys)
    (hid : ∀ i, i < nsys → (sys i).id = i)
    (hsym : ∀ i, i < nsys → ∀ t, t < nsys → (t ∈ (sys i).jumps ↔ i ∈ (sys t).jumps))
    (hnd : ∀ i, i < nsys → ((sys i).jumps).Nodup)
    (htg : ∀ i, i < nsys → ∀ t, t ∈ (sys i).jumps → t < nsys) :
    trade_update nsys npr tm sys
      = (edgeList nsys sys).foldl (fun s e => tradeEdge npr tm e.1 e.2 s)
          (resetBought nsys npr sys)
    ∧ (∀ a b, (a, b) ∈ edgeList nsys sys →
        a < nsys ∧ b < nsys ∧ b ∈ (sys a).jumps ∧ a < b)
    ∧ (∀ a b, a < nsys → b < nsys → a < b →
        (b ∈ (sys a).jumps ∨ a ∈ (sys b).jumps) →
        (edgeList nsys sys).count (a, b) = 1 ∧ (edgeList nsys sys).count (b, a) = 0)
    ∧ (∀ (s : Sys) (i t gn : ℕ) (price trade : ℚ), i ≠ t →
        price = tradePrice (s i) (s t) gn → trade = tradeAmount tm (s i) (s t) gn →
        price = ((s i).credits + (s t).credits)
            / ((s i).stockpiles gn + (s t).stockpiles gn)
        ∧ trade = tm * ((s i).credits * (s t).stockpiles gn
              - (s t).credits * (s i).stockpiles gn)
            / (price * ((s i).stockpiles gn + (s t).stockpiles gn)
              + (s i).credits + (s t).credits)
        ∧ (tradeGoodStep tm i t gn s i).credits = (s i).credits - price * trade
        ∧ (tradeGoodStep tm i t gn s t).credits = (s t).credits + price * trade
        ∧ (tradeGoodStep tm i t gn s i).stockpiles gn = (s i).stockpiles gn + trade
        ∧ (tradeGoodStep tm i t gn s t).stockpiles gn = (s t).stockpiles gn - trade
        ∧ (tradeGoodStep tm i t gn s i).bought gn = (s i).bought gn + trade
        ∧ (tradeGoodStep tm i t gn s t).bought gn = (s t).bought gn - trade
        ∧ (∀ j, j ≠ i → j ≠ t → tradeGoodStep tm i t gn s j = s j)) := by
  refine ⟨trade_update_eq_edges nsys npr tm sys, ?_, ?_, ?_⟩
  · intro a b hmem
    have h := (edgeList_mem nsys sys a b).mp hmem
    have hb : b < nsys := htg a h.1 b h.2.1
    refine ⟨h.1, hb, h.2.1, ?_⟩
    rw [← hid b hb]
    exact h.2.2
  · intro a b ha hb hab hedge
    have hmem : b ∈ (sys a).jumps := by
      rcases hedge with h | h
      · exact h
      · exact (hsym a ha b hb).mpr h
    constructor
    · refine edgeList_count_one nsys sys a b ha hmem ?_ (hnd a ha)
      rw [hid b hb]
      exact hab
    · apply List.count_eq_zero.mpr
      intro hcontra
      have h := (edgeList_mem nsys sys b a).mp hcontra
      rw [hid a ha] at h
      have hba := h.2.2
      omega
  · intro s i t gn price trade hit hprice htrade
    have hf := applyTrade_apply_fst (tradePrice (s i) (s t) gn)
        (tradeAmount tm (s i) (s t) gn) i t gn s hit
    have hsnd := applyTrade_apply_snd (tradePrice (s i) (s t) gn)
        (tradeAmount tm (s i) (s t) gn) i t gn s hit
    subst hprice
    subst htrade
    refine ⟨rfl, rfl, hf.1, hsnd.1, ?_, ?_, ?_, ?_, ?_⟩
    · exact (congrFun hf.2.1 gn).trans (Function.update_same gn _ _)
    · exact (congrFun hsnd.2.1 gn).trans (Function.update_same gn _ _)
    · exact (congrFun hf.2.2 gn).trans (Function.update_same gn _ _)
    · exact (congrFun hsnd.2.2 gn).trans (Function.update_same gn _ _)
    · intro j hji hjt
      exact applyTrade_apply_ne _ _ i t gn j s hji hjt

theorem claim_C2_witness :
    trade_update 2 1 (99/100) exG
      = (edgeList 2 exG).foldl (fun s e => tradeEdge 1 (99/100) e.1 e.2 s)
          (resetBought 2 1 exG)
    ∧ (edgeList 2 exG).count (0, 1) = 1
    ∧ (edgeList 2 exG).count (1, 0) = 0 := by
  have h := claim_C2 2 1 (99/100) exG (by decide) (by decide) (by decide) (by decide)
  have h3 := h.2.2.1 0 1 (by norm_num) (by norm_num) (by norm_num) (Or.inl (by decide))
  exact ⟨h.1, h3.1, h3.2⟩
